import Mathlib

/-!
Verification of the `cjk_ascii_formatter` repository.

The Python source (`src/cjk_ascii_formatter/formatter.py` and
`src/cjk_ascii_formatter/cli.py`) is shallowly embedded here.  A Python `str`
is modelled as a `List Char` (a sequence of Unicode code points, which is how
Python indexes and slices strings).  The regular-expression searches of
`is_url_or_email_context` are embedded as explicit substring searches: the
regex `https?://` matches somewhere in a string iff the string contains the
literal `http://` or the literal `https://`; `ftp://` and `www\.` are literal
substrings; the email regex `[\w.-]+@[\w.-]+` matches iff some `@` has a
character of the class `[\w.-]` immediately before it and immediately after
it.  `re.IGNORECASE` is modelled as ASCII case folding of the window (the
patterns are ASCII).  Python's Unicode `\w` (word character: underscore or an
alphanumeric code point) is modelled on the character repertoire this
development touches: underscore, ASCII alphanumerics, and the four CJK letter
ranges used by the formatter.
-/

namespace CjkFmt

/-- The four inclusive CJK code-point ranges of `is_cjk_char`:
CJK Unified Ideographs, Hiragana, Katakana, Hangul syllables. -/
def cjkCode (n : Nat) : Bool :=
  (0x4E00 ≤ n && n ≤ 0x9FFF)
  || (0x3040 ≤ n && n ≤ 0x309F)
  || (0x30A0 ≤ n && n ≤ 0x30FF)
  || (0xAC00 ≤ n && n ≤ 0xD7AF)

/-- `is_cjk_char(char)` from `formatter.py`: `if not char: return False`,
then `ord(char)` is tested against the four ranges.  The argument is a
Python string; it is called on single characters. -/
def is_cjk_char (char : List Char) : Bool :=
  match char with
  | [] => false
  | c :: _ => cjkCode c.toNat

/-- ASCII letter or digit, as a code-point test.  For a single ASCII
character this is exactly Python's `char.isascii() and char.isalnum()`. -/
def asciiAlnumChar (c : Char) : Bool :=
  c.toNat ≤ 0x7F
  && ((0x30 ≤ c.toNat && c.toNat ≤ 0x39)
      || (0x41 ≤ c.toNat && c.toNat ≤ 0x5A)
      || (0x61 ≤ c.toNat && c.toNat ≤ 0x7A))

/-- `is_ascii_alnum(char)` from `formatter.py`:
`bool(char and char.isascii() and char.isalnum())`.  A nonempty string all of
whose characters are ASCII and alphanumeric; since `isascii` guards `isalnum`,
per character this is `asciiAlnumChar`. -/
def is_ascii_alnum (char : List Char) : Bool :=
  !char.isEmpty && char.all asciiAlnumChar

/-- Python regex `\w` (Unicode word character: underscore or alphanumeric),
modelled for the character repertoire of this development: underscore, ASCII
alphanumerics, and the four CJK letter ranges (all Unicode alphanumerics). -/
def wordChar (c : Char) : Bool :=
  asciiAlnumChar c || c.toNat = 0x5F || cjkCode c.toNat

/-- The character class `[\w.-]` of the email regex. -/
def emailClassChar (c : Char) : Bool :=
  wordChar c || c.toNat = 0x2E || c.toNat = 0x2D

/-- ASCII case folding, modelling `re.IGNORECASE` for the ASCII-only
URL patterns. -/
def lowerChar (c : Char) : Char :=
  c.toLower

/-- The context window of `is_url_or_email_context`:
`text[max(0, pos - 50) : min(len(text), pos + 50)]`.  `Nat` subtraction gives
the `max` clamp and `take` gives the `min` clamp. -/
def window (text : List Char) (pos : Nat) : List Char :=
  (text.take (pos + 50)).drop (pos - 50)

/-- `pat` occurs in `w` starting at index `i` (as a contiguous substring). -/
def sliceIs (w : List Char) (i : Nat) (pat : List Char) : Bool :=
  decide ((w.drop i).take pat.length = pat)

/-- `pat` occurs somewhere in `w`: `re.search` of a literal pattern. -/
def containsPat (pat w : List Char) : Bool :=
  (List.range (w.length + 1)).any (fun i => sliceIs w i pat)

/-- The URL prefix markers of `is_url_or_email_context`, written lowercase as
literal alternatives: `https?://` is the two literals `http://` and
`https://`; then `ftp://` and `www.` (the regex `www\.` with a literal dot). -/
def urlPats : List (List Char) :=
  [['h', 't', 't', 'p', ':', '/', '/'],
   ['h', 't', 't', 'p', 's', ':', '/', '/'],
   ['f', 't', 'p', ':', '/', '/'],
   ['w', 'w', 'w', '.']]

/-- The character of `w` at index `k` is in the class `[\w.-]`. -/
def classAt (w : List Char) (k : Nat) : Bool :=
  match w[k]? with
  | some c => emailClassChar c
  | none => false

/-- The email regex `[\w.-]+@[\w.-]+` matches around index `a` of `w`:
an `@` at `a` with a class character immediately before and after. -/
def emailShapeAt (w : List Char) (a : Nat) : Bool :=
  decide (1 ≤ a) && decide (w[a]? = some '@') && classAt w (a - 1) && classAt w (a + 1)

/-- `re.search(r"[\w.-]+@[\w.-]+", w)` succeeds: the match needs at least one
class character on each side of some `@`, which is exactly an `@` with class
characters adjacent on both sides. -/
def emailShape (w : List Char) : Bool :=
  (List.range w.length).any (emailShapeAt w)

/-- `is_url_or_email_context(text, pos)` from `formatter.py`: extract the
window, return `True` on any case-insensitive URL-pattern hit, otherwise
`"@" in context and re.search(r"[\w.-]+@[\w.-]+", context)`. -/
def is_url_or_email_context (text : List Char) (pos : Nat) : Bool :=
  urlPats.any (fun pat => containsPat pat ((window text pos).map lowerChar))
  || (decide ('@' ∈ window text pos) && emailShape (window text pos))

/-- The CJK↔ASCII-alnum boundary test of the scan loop, in either direction:
`(is_cjk_char(char) and is_ascii_alnum(next_char)) or
(is_ascii_alnum(char) and is_cjk_char(next_char))`. -/
def boundary (c next : Char) : Bool :=
  (is_cjk_char [c] && is_ascii_alnum [next])
  || (is_ascii_alnum [c] && is_cjk_char [next])

/-- The scan loop of `format_text`.  `text` is the full original input, `i`
the current index into it, and the third argument is `text.drop i`, the part
of the input not yet consumed.  Each step appends the current character; if a
next character exists and is a space it advances without inserting; otherwise
at a CJK↔ASCII-alnum boundary outside a URL/email context it appends one
ASCII space. -/
def formatGo (text : List Char) : Nat → List Char → List Char
  | _, [] => []
  | _, [c] => [c]
  | i, c :: next :: rest =>
    if next = ' ' then
      c :: formatGo text (i + 1) (next :: rest)
    else if boundary c next && !is_url_or_email_context text i then
      c :: ' ' :: formatGo text (i + 1) (next :: rest)
    else
      c :: formatGo text (i + 1) (next :: rest)

/-- `format_text(text)` from `formatter.py`: `if not text: return text`,
then the single left-to-right scan. -/
def format_text (text : List Char) : List Char :=
  if text.isEmpty then text else formatGo text 0 text

/-- The insertion decision of the scan at index `i`: a space is appended
after `text[i]` iff a next character exists, is not a space, forms a
CJK↔ASCII-alnum boundary with `text[i]`, and
`is_url_or_email_context text i` is false. -/
def spaceAfter (text : List Char) (i : Nat) : Bool :=
  match text.drop i with
  | c :: next :: _ =>
    decide (next ≠ ' ') && boundary c next && !is_url_or_email_context text i
  | _ => false

/-- Number of inserted spaces at indices `< p`: how far output positions are
shifted relative to input positions. -/
def insCount (text : List Char) : Nat → Nat
  | 0 => 0
  | p + 1 => insCount text p + (if spaceAfter text p then 1 else 0)

/-- The output piece contributed by input index `i`: the character itself,
followed by one inserted space when the insertion rule fires at `i`. -/
def pieceAt (text : List Char) (i : Nat) : List Char :=
  (text.drop i).take 1 ++ (if spaceAfter text i then [' '] else [])

/-- Concatenation of the output pieces of `n` consecutive input indices
starting at `i`. -/
def catPieces (text : List Char) : Nat → Nat → List Char
  | _, 0 => []
  | i, n + 1 => pieceAt text i ++ catPieces text (i + 1) n

/-- An occurrence, starting at index `m` and of length `L`, of a substring
that makes `is_url_or_email_context` fire: either a case-folded URL pattern,
or the three-character core `[\w.-]` `@` `[\w.-]` of an email-regex match. -/
def markerOcc (text : List Char) (m L : Nat) : Prop :=
  (∃ pat, pat ∈ urlPats ∧ pat.length = L
     ∧ ∀ k, k < L → (text[m + k]?).map lowerChar = pat[k]?)
  ∨ (L = 3 ∧ text[m + 1]? = some '@'
     ∧ classAt text m = true ∧ classAt text (m + 2) = true)

/-- Outcome of the argument validation at the top of `main` in `cli.py`,
before any file is read or written.  `usageError msg code` models
`click.echo(msg, err=True)` (a message on the error stream) followed by
`sys.exit(code)`, with no file touched.  `stdinMode` models the
read-stdin/write-stdout branch, `fileMode` the per-file loop. -/
inductive CliResult where
  | usageError (msg : String) (exitCode : Nat)
  | stdinMode
  | fileMode
deriving DecidableEq

/-- The flag/file validation of `main` in `cli.py`, in source order:
both flags, then no files, then neither flag, then `-` without `--write`. -/
def cliValidate (check write : Bool) (files : List String) : CliResult :=
  if check && write then
    .usageError ("Error: --check and --write are mutually exclusive.") 1
  else if files.isEmpty then
    .usageError ("Error: No files specified.") 1
  else if !check && !write then
    .usageError ("Error: Specify either --check or --write.") 1
  else if files = [("-" : String)] then
    if !write then .usageError ("Error: stdin mode only works with --write.") 1
    else .stdinMode
  else .fileMode

/-- The validation outcome is a usage error with exit status 1. -/
def isUsage : CliResult → Bool
  | .usageError _ e => decide (e = 1)
  | _ => false

/-! ## Basic bridging lemmas -/

theorem spaceAfter_eq {text : List Char} {i : Nat} {c n : Char} {r : List Char}
    (h : text.drop i = c :: n :: r) :
    spaceAfter text i
      = (decide (n ≠ ' ') && boundary c n && !is_url_or_email_context text i) := by
  simp only [spaceAfter, h]

theorem spaceAfter_of_drop_nil {text : List Char} {i : Nat} (h : text.drop i = []) :
    spaceAfter text i = false := by
  simp only [spaceAfter, h]

theorem spaceAfter_of_drop_single {text : List Char} {i : Nat} {c : Char}
    (h : text.drop i = [c]) : spaceAfter text i = false := by
  simp only [spaceAfter, h]

theorem drop_cons_succ {text : List Char} {i : Nat} {c : Char} {l : List Char}
    (h : text.drop i = c :: l) : text.drop (i + 1) = l := by
  have h1 : (text.drop i).drop 1 = text.drop (i + 1) := List.drop_drop 1 i text
  rw [← h1, h]
  rfl

theorem formatGo_cons {text : List Char} {i : Nat} {c n : Char} {r : List Char}
    (h : text.drop i = c :: n :: r) :
    formatGo text i (c :: n :: r)
      = c :: ((if spaceAfter text i then [' '] else [])
              ++ formatGo text (i + 1) (n :: r)) := by
  rw [spaceAfter_eq h]
  by_cases hn : n = ' '
  · subst hn
    simp [formatGo]
  · by_cases hb : (boundary c n && !is_url_or_email_context text i) = true
    · simp [formatGo, hn, hb]
    · simp only [Bool.not_eq_true] at hb
      simp [formatGo, hn, hb]

/-! ## The output is the concatenation of per-index pieces -/

theorem formatGo_eq_catPieces (s : List Char) :
    ∀ (l : List Char) (i : Nat), s.drop i = l → formatGo s i l = catPieces s i l.length
  | [], i, _ => by simp [formatGo, catPieces]
  | [c], i, h => by
    simp [formatGo, catPieces, pieceAt, h, spaceAfter_of_drop_single h]
  | c :: n :: r, i, h => by
    have h1 : s.drop (i + 1) = n :: r := drop_cons_succ h
    have ih := formatGo_eq_catPieces s (n :: r) (i + 1) h1
    rw [formatGo_cons h, ih]
    simp [catPieces, pieceAt, h]

theorem format_text_eq_catPieces (s : List Char) :
    format_text s = catPieces s 0 s.length := by
  cases s with
  | nil => rfl
  | cons c t =>
    have h0 : format_text (c :: t) = formatGo (c :: t) 0 (c :: t) := rfl
    rw [h0]
    exact formatGo_eq_catPieces (c :: t) (c :: t) 0 rfl

/-! ## Character-class facts -/

theorem alnum_false_of_cjk {c : Char} (h : is_cjk_char [c] = true) :
    is_ascii_alnum [c] = false := by
  simp only [is_cjk_char, cjkCode, Bool.or_eq_true, Bool.and_eq_true,
    decide_eq_true_iff] at h
  simp only [is_ascii_alnum, asciiAlnumChar, List.all_cons, List.all_nil,
    List.isEmpty_cons, Bool.not_false, Bool.true_and, Bool.and_true,
    Bool.and_eq_false_iff, Bool.or_eq_false_iff, decide_eq_false_iff_not,
    Bool.not_eq_true]
  omega

theorem cjk_false_of_ascii {c : Char} (h : c.toNat ≤ 0x7F) :
    is_cjk_char [c] = false := by
  simp only [is_cjk_char, cjkCode, Bool.or_eq_false_iff, Bool.and_eq_false_iff,
    decide_eq_false_iff_not, Bool.not_eq_true]
  omega

theorem cjk_ne_space {c : Char} (h : is_cjk_char [c] = true) : c ≠ ' ' := by
  intro he
  subst he
  exact absurd h (by decide)

theorem alnum_ne_space {c : Char} (h : is_ascii_alnum [c] = true) : c ≠ ' ' := by
  intro he
  subst he
  exact absurd h (by decide)

/-! ## No-insertion inputs are fixed points of the scan -/

theorem formatGo_id_of_no_insert (t : List Char) :
    ∀ (l : List Char) (i : Nat), t.drop i = l → (∀ q, spaceAfter t q = false) →
      formatGo t i l = l
  | [], _, _, _ => rfl
  | [_], _, _, _ => rfl
  | c :: n :: r, i, h, hq => by
    have h1 : t.drop (i + 1) = n :: r := drop_cons_succ h
    have ih := formatGo_id_of_no_insert t (n :: r) (i + 1) h1 hq
    rw [formatGo_cons h, hq i, ih]
    simp

theorem format_text_id_of_no_insert {t : List Char}
    (hq : ∀ q, spaceAfter t q = false) : format_text t = t := by
  cases t with
  | nil => rfl
  | cons c l =>
    have h0 : format_text (c :: l) = formatGo (c :: l) 0 (c :: l) := rfl
    rw [h0]
    exact formatGo_id_of_no_insert (c :: l) (c :: l) 0 rfl hq

/-! ## Claim theorems (first group) -/

/-- C1: `format_text` inserts exactly one ASCII space between `s[i]` and
`s[i+1]` iff the next code point is not a space, the pair is a
CJK↔ASCII-alnum boundary in either direction, and the context detector
returns false for the original text at the original index `i`; otherwise
nothing is inserted there, and the output is the concatenation of the
input's code points with these inserted spaces. -/
theorem C1_insertion_rule (s : List Char) :
    format_text s = catPieces s 0 s.length
    ∧ ∀ i c n r, s.drop i = c :: n :: r →
        (spaceAfter s i = true ↔
          (n ≠ ' '
           ∧ ((is_cjk_char [c] = true ∧ is_ascii_alnum [n] = true)
              ∨ (is_ascii_alnum [c] = true ∧ is_cjk_char [n] = true))
           ∧ is_url_or_email_context s i = false)) := by
  refine ⟨format_text_eq_catPieces s, ?_⟩
  intro i c n r h
  rw [spaceAfter_eq h]
  simp only [boundary, Bool.and_eq_true, Bool.or_eq_true, decide_eq_true_iff,
    Bool.not_eq_true']
  tauto

/-- Witness for C1 at the concrete input `中A`, index 0. -/
theorem C1_insertion_rule_witness :
    spaceAfter ['中', 'A'] 0 = true ↔
      ('A' ≠ ' '
       ∧ ((is_cjk_char ['中'] = true ∧ is_ascii_alnum ['A'] = true)
          ∨ (is_ascii_alnum ['中'] = true ∧ is_cjk_char ['A'] = true))
       ∧ is_url_or_email_context ['中', 'A'] 0 = false) :=
  (C1_insertion_rule ['中', 'A']).2 0 '中' 'A' [] rfl

/-- C4: `is_cjk_char` holds on a single code point exactly on the four
inclusive ranges U+4E00–U+9FFF, U+3040–U+309F, U+30A0–U+30FF, U+AC00–U+D7AF;
`is_ascii_alnum` holds exactly on ASCII letters and digits; both predicates
are false on empty input. -/
theorem C4_classifiers (c : Char) :
    (is_cjk_char [c] = true ↔
      ((0x4E00 ≤ c.toNat ∧ c.toNat ≤ 0x9FFF) ∨ (0x3040 ≤ c.toNat ∧ c.toNat ≤ 0x309F)
       ∨ (0x30A0 ≤ c.toNat ∧ c.toNat ≤ 0x30FF) ∨ (0xAC00 ≤ c.toNat ∧ c.toNat ≤ 0xD7AF)))
    ∧ (is_ascii_alnum [c] = true ↔
      ((0x41 ≤ c.toNat ∧ c.toNat ≤ 0x5A) ∨ (0x61 ≤ c.toNat ∧ c.toNat ≤ 0x7A)
       ∨ (0x30 ≤ c.toNat ∧ c.toNat ≤ 0x39)))
    ∧ is_cjk_char [] = false ∧ is_ascii_alnum [] = false := by
  refine ⟨?_, ?_, rfl, rfl⟩
  · simp only [is_cjk_char, cjkCode, Bool.or_eq_true, Bool.and_eq_true,
      decide_eq_true_iff]
    omega
  · simp only [is_ascii_alnum, asciiAlnumChar, List.all_cons, List.all_nil,
      List.isEmpty_cons, Bool.not_false, Bool.true_and, Bool.and_true,
      Bool.or_eq_true, Bool.and_eq_true, decide_eq_true_iff]
    omega

/-- C6: `format_text` is the identity on unmixed text: on strings of only
CJK code points, and on strings of only ASCII code points. -/
theorem C6_identity_on_unmixed (s : List Char) :
    ((∀ c, c ∈ s → is_cjk_char [c] = true) → format_text s = s)
    ∧ ((∀ c, c ∈ s → c.toNat ≤ 0x7F) → format_text s = s) := by
  constructor
  · intro hall
    apply format_text_id_of_no_insert
    intro q
    cases hd : s.drop q with
    | nil => exact spaceAfter_of_drop_nil hd
    | cons c l =>
      cases l with
      | nil => exact spaceAfter_of_drop_single hd
      | cons n r =>
        rw [spaceAfter_eq hd]
        have hc : c ∈ s := List.drop_subset q s (by rw [hd]; exact List.mem_cons_self c _)
        have hn : n ∈ s := List.drop_subset q s
          (by rw [hd]; exact List.mem_cons_of_mem c (List.mem_cons_self n _))
        have h1 : is_ascii_alnum [c] = false := alnum_false_of_cjk (hall c hc)
        have h2 : is_ascii_alnum [n] = false := alnum_false_of_cjk (hall n hn)
        simp [boundary, h1, h2]
  · intro hall
    apply format_text_id_of_no_insert
    intro q
    cases hd : s.drop q with
    | nil => exact spaceAfter_of_drop_nil hd
    | cons c l =>
      cases l with
      | nil => exact spaceAfter_of_drop_single hd
      | cons n r =>
        rw [spaceAfter_eq hd]
        have hc : c ∈ s := List.drop_subset q s (by rw [hd]; exact List.mem_cons_self c _)
        have hn : n ∈ s := List.drop_subset q s
          (by rw [hd]; exact List.mem_cons_of_mem c (List.mem_cons_self n _))
        have h1 : is_cjk_char [c] = false := cjk_false_of_ascii (hall c hc)
        have h2 : is_cjk_char [n] = false := cjk_false_of_ascii (hall n hn)
        simp [boundary, h1, h2]

/-- Witness for C6 on a pure-CJK string and a pure-ASCII string. -/
theorem C6_identity_on_unmixed_witness :
    format_text ['中', '文'] = ['中', '文'] ∧ format_text ['a', 'b'] = ['a', 'b'] :=
  ⟨(C6_identity_on_unmixed ['中', '文']).1 (by decide),
   (C6_identity_on_unmixed ['a', 'b']).2 (by decide)⟩

/-! ## Pointwise characterization of the substring searches -/

theorem sliceIs_iff {w pat : List Char} {i : Nat} :
    sliceIs w i pat = true ↔ ∀ k, k < pat.length → w[i + k]? = pat[k]? := by
  simp only [sliceIs, decide_eq_true_iff]
  constructor
  · intro h k hk
    have h1 : pat[k]? = ((w.drop i).take pat.length)[k]? := by rw [h]
    rw [List.getElem?_take, if_pos hk, List.getElem?_drop] at h1
    exact h1.symm
  · intro h
    apply List.ext_getElem?
    intro k
    by_cases hk : k < pat.length
    · rw [List.getElem?_take, if_pos hk, List.getElem?_drop]
      exact h k hk
    · rw [List.getElem?_take, if_neg hk]
      exact (List.getElem?_eq_none (Nat.le_of_not_lt hk)).symm

theorem containsPat_iff {pat w : List Char} :
    containsPat pat w = true ↔ ∃ i, ∀ k, k < pat.length → w[i + k]? = pat[k]? := by
  simp only [containsPat, List.any_eq_true, List.mem_range]
  constructor
  · rintro ⟨i, _, hs⟩
    exact ⟨i, sliceIs_iff.mp hs⟩
  · rintro ⟨i, h⟩
    by_cases hL : pat.length = 0
    · refine ⟨0, Nat.succ_le_succ (Nat.zero_le _), ?_⟩
      simp [sliceIs, List.length_eq_zero.mp hL]
    · have hlt : 0 < pat.length := Nat.pos_of_ne_zero hL
      have h0 : w[i + 0]? = pat[0]? := h 0 hlt
      rw [List.getElem?_eq_getElem hlt, Nat.add_zero] at h0
      have hi : i < w.length := by
        by_contra hcon
        rw [List.getElem?_eq_none (Nat.le_of_not_lt hcon)] at h0
        cases h0
      exact ⟨i, Nat.lt_succ_of_lt hi, sliceIs_iff.mpr h⟩

theorem window_getElem? (text : List Char) (pos j : Nat) :
    (window text pos)[j]? =
      if pos - 50 + j < pos + 50 then text[pos - 50 + j]? else none := by
  simp only [window, List.getElem?_drop, List.getElem?_take]

theorem window_getElem?_some {text : List Char} {pos j : Nat} {c : Char}
    (h : (window text pos)[j]? = some c) :
    pos - 50 + j < pos + 50 ∧ text[pos - 50 + j]? = some c := by
  rw [window_getElem?] at h
  by_cases hc : pos - 50 + j < pos + 50
  · rw [if_pos hc] at h
    exact ⟨hc, h⟩
  · rw [if_neg hc] at h
    cases h

theorem classAt_true_iff {w : List Char} {k : Nat} :
    classAt w k = true ↔ ∃ c, w[k]? = some c ∧ emailClassChar c = true := by
  simp only [classAt]
  cases h : w[k]? with
  | none => simp
  | some c => simp

theorem emailShape_iff {w : List Char} :
    emailShape w = true ↔
      ∃ a, 1 ≤ a ∧ w[a]? = some '@'
        ∧ classAt w (a - 1) = true ∧ classAt w (a + 1) = true := by
  simp only [emailShape, List.any_eq_true, List.mem_range, emailShapeAt,
    Bool.and_eq_true, decide_eq_true_iff]
  constructor
  · rintro ⟨a, -, ⟨⟨h1, h2⟩, h3⟩, h4⟩
    exact ⟨a, h1, h2, h3, h4⟩
  · rintro ⟨a, h1, h2, h3, h4⟩
    have ha : a < w.length := by
      by_contra hcon
      rw [List.getElem?_eq_none (Nat.le_of_not_lt hcon)] at h2
      cases h2
    exact ⟨a, ha, ⟨⟨h1, h2⟩, h3⟩, h4⟩

theorem urlPats_len : ∀ pat, pat ∈ urlPats → 1 ≤ pat.length ∧ pat.length ≤ 8 := by
  decide

theorem markerOcc_len {text : List Char} {m L : Nat} (h : markerOcc text m L) :
    1 ≤ L ∧ L ≤ 50 := by
  rcases h with ⟨pat, hmem, hlen, -⟩ | ⟨h3, -⟩
  · have := urlPats_len pat hmem
    omega
  · omega

/-! ## The context detector fires iff a marker occurrence lies in the
window: local (window) positions correspond to global (text) positions. -/

theorem url_local_global {text : List Char} {pos : Nat} {pat : List Char}
    (hmem : pat ∈ urlPats)
    (hcp : containsPat pat ((window text pos).map lowerChar) = true) :
    ∃ m, (∀ k, k < pat.length → (text[m + k]?).map lowerChar = pat[k]?)
      ∧ pos ≤ m + 50 ∧ m + pat.length ≤ pos + 50 := by
  obtain ⟨i, hpt⟩ := containsPat_iff.mp hcp
  have hbound : ∀ k, k < pat.length →
      pos - 50 + (i + k) < pos + 50
      ∧ (text[pos - 50 + (i + k)]?).map lowerChar = pat[k]? := by
    intro k hk
    have h1 := hpt k hk
    rw [List.getElem?_map] at h1
    cases hw : (window text pos)[i + k]? with
    | none =>
      rw [hw, List.getElem?_eq_getElem hk] at h1
      cases h1
    | some c =>
      have h2 := window_getElem?_some hw
      rw [hw] at h1
      rw [h2.2]
      exact ⟨h2.1, h1⟩
  refine ⟨pos - 50 + i, ?_, ?_, ?_⟩
  · intro k hk
    have := (hbound k hk).2
    rwa [← Nat.add_assoc] at this
  · omega
  · have hL1 := (urlPats_len pat hmem).1
    have := (hbound (pat.length - 1) (by omega)).1
    omega

theorem url_global_local {text : List Char} {pos : Nat} {pat : List Char} {m : Nat}
    (hpt : ∀ k, k < pat.length → (text[m + k]?).map lowerChar = pat[k]?)
    (h1 : pos ≤ m + 50) (h2 : m + pat.length ≤ pos + 50) :
    containsPat pat ((window text pos).map lowerChar) = true := by
  apply containsPat_iff.mpr
  refine ⟨m - (pos - 50), ?_⟩
  intro k hk
  have hidx : pos - 50 + (m - (pos - 50) + k) = m + k := by omega
  rw [List.getElem?_map, window_getElem?, hidx, if_pos (by omega)]
  rw [← List.getElem?_map]
  rw [List.getElem?_map]
  exact hpt k hk

theorem ctx_iff (text : List Char) (pos : Nat) :
    is_url_or_email_context text pos = true ↔
      ∃ m L, markerOcc text m L ∧ pos ≤ m + 50 ∧ m + L ≤ pos + 50 := by
  simp only [is_url_or_email_context, Bool.or_eq_true, Bool.and_eq_true,
    List.any_eq_true, decide_eq_true_iff]
  constructor
  · rintro (⟨pat, hmem, hcp⟩ | ⟨-, hes⟩)
    · obtain ⟨m, hpt, hb1, hb2⟩ := url_local_global hmem hcp
      exact ⟨m, pat.length, Or.inl ⟨pat, hmem, rfl, hpt⟩, hb1, hb2⟩
    · obtain ⟨a, ha1, ha2, ha3, ha4⟩ := emailShape_iff.mp hes
      obtain ⟨c1, hc1, hc1c⟩ := classAt_true_iff.mp ha3
      obtain ⟨c2, hc2, hc2c⟩ := classAt_true_iff.mp ha4
      have hat := window_getElem?_some ha2
      have hg1 := window_getElem?_some hc1
      have hg2 := window_getElem?_some hc2
      refine ⟨pos - 50 + (a - 1), 3, Or.inr ⟨rfl, ?_, ?_, ?_⟩, by omega, by omega⟩
      · have hidx : pos - 50 + (a - 1) + 1 = pos - 50 + a := by omega
        rw [hidx]
        exact hat.2
      · apply classAt_true_iff.mpr
        exact ⟨c1, hg1.2, hc1c⟩
      · apply classAt_true_iff.mpr
        have hidx : pos - 50 + (a - 1) + 2 = pos - 50 + (a + 1) := by omega
        rw [hidx]
        exact ⟨c2, hg2.2, hc2c⟩
  · rintro ⟨m, L, ⟨pat, hmem, hlen, hpt⟩ | ⟨hL3, hat, hcm, hcm2⟩, hb1, hb2⟩
    · subst hlen
      exact Or.inl ⟨pat, hmem, url_global_local hpt hb1 hb2⟩
    · subst hL3
      refine Or.inr ⟨?_, ?_⟩
      · -- '@' is in the window
        have : (window text pos)[m + 1 - (pos - 50)]? = some '@' := by
          rw [window_getElem?, if_pos (by omega)]
          have hidx : pos - 50 + (m + 1 - (pos - 50)) = m + 1 := by omega
          rw [hidx]
          exact hat
        exact List.getElem?_mem this
      · apply emailShape_iff.mpr
        obtain ⟨c1, hc1, hc1c⟩ := classAt_true_iff.mp hcm
        obtain ⟨c2, hc2, hc2c⟩ := classAt_true_iff.mp hcm2
        refine ⟨m + 1 - (pos - 50), by omega, ?_, ?_, ?_⟩
        · rw [window_getElem?, if_pos (by omega)]
          have hidx : pos - 50 + (m + 1 - (pos - 50)) = m + 1 := by omega
          rw [hidx]
          exact hat
        · apply classAt_true_iff.mpr
          rw [window_getElem?, if_pos (by omega)]
          have hidx : pos - 50 + (m + 1 - (pos - 50) - 1) = m := by omega
          rw [hidx]
          exact ⟨c1, hc1, hc1c⟩
        · apply classAt_true_iff.mpr
          rw [window_getElem?, if_pos (by omega)]
          have hidx : pos - 50 + (m + 1 - (pos - 50) + 1) = m + 2 := by omega
          rw [hidx]
          exact ⟨c2, hc2, hc2c⟩

/-! ## Suppression and insertion-count machinery for idempotence -/

theorem space_not_cjk : is_cjk_char [' '] = false := by decide

theorem space_not_alnum : is_ascii_alnum [' '] = false := by decide

theorem spaceAfter_false_of_ctx {text : List Char} {pos : Nat}
    (h : is_url_or_email_context text pos = true) : spaceAfter text pos = false := by
  unfold spaceAfter
  cases hd : text.drop pos with
  | nil => rfl
  | cons c l =>
    cases l with
    | nil => rfl
    | cons n r => simp [h]

theorem spaceAfter_false_of_marker {text : List Char} {m L pos : Nat}
    (hm : markerOcc text m L) (h1 : pos ≤ m + 50) (h2 : m + L ≤ pos + 50) :
    spaceAfter text pos = false :=
  spaceAfter_false_of_ctx ((ctx_iff text pos).mpr ⟨m, L, hm, h1, h2⟩)

theorem insCount_succ (s : List Char) (p : Nat) :
    insCount s (p + 1) = insCount s p + (if spaceAfter s p then 1 else 0) := rfl

theorem insCount_const (s : List Char) :
    ∀ (d a : Nat), (∀ j, a ≤ j → j < a + d → spaceAfter s j = false) →
      insCount s (a + d) = insCount s a
  | 0, _, _ => rfl
  | d + 1, a, h => by
    have ih := insCount_const s d a (fun j hj hj2 => h j hj (by omega))
    rw [Nat.add_succ, insCount_succ s (a + d), h (a + d) (by omega) (by omega), ih]
    rfl

theorem marker_insCount_eq {s : List Char} {m L pos : Nat}
    (hm : markerOcc s m L) (h1 : pos ≤ m + 50) (h2 : m + L ≤ pos + 50) :
    insCount s pos = insCount s m := by
  have hL := markerOcc_len hm
  rcases Nat.le_total pos m with hc | hc
  · have hcc := insCount_const s (m - pos) pos (fun j hj hj2 =>
      spaceAfter_false_of_marker hm (by omega) (by omega))
    have he : pos + (m - pos) = m := by omega
    rw [he] at hcc
    exact hcc.symm
  · have hcc := insCount_const s (pos - m) m (fun j hj hj2 =>
      spaceAfter_false_of_marker hm (by omega) (by omega))
    have he : m + (pos - m) = pos := by omega
    rw [he] at hcc
    exact hcc

/-! ## The scan does not disturb suppressed regions -/

theorem formatGo_take (s : List Char) :
    ∀ (l : List Char) (j L : Nat), s.drop j = l →
      (∀ t, t + 1 < L → spaceAfter s (j + t) = false) →
      (formatGo s j l).take L = l.take L
  | [], _, _, _, _ => by simp [formatGo]
  | [c], _, _, _, _ => by simp [formatGo]
  | c :: n :: r, j, L, h, hno => by
    have h1 : s.drop (j + 1) = n :: r := drop_cons_succ h
    cases L with
    | zero => simp
    | succ L' =>
      cases L' with
      | zero =>
        rw [formatGo_cons h]
        simp
      | succ L'' =>
        have hsa : spaceAfter s j = false := hno 0 (by omega)
        have ih := formatGo_take s (n :: r) (j + 1) (L'' + 1) h1
          (fun t ht => by
            rw [show j + 1 + t = j + (t + 1) from by omega]
            exact hno (t + 1) (by omega))
        rw [formatGo_cons h, hsa]
        simp only [Bool.false_eq_true, if_false, List.nil_append, List.take_succ_cons, ih]

theorem format_text_drop (s : List Char) :
    ∀ j : Nat, (format_text s).drop (j + insCount s j) = formatGo s j (s.drop j)
  | 0 => by
    cases s with
    | nil => rfl
    | cons c t => rfl
  | j + 1 => by
    have ih := format_text_drop s j
    cases hd : s.drop j with
    | nil =>
      have h1 : s.drop (j + 1) = [] := by
        rw [List.drop_eq_nil_iff] at hd ⊢
        omega
      have hK : insCount s (j + 1) = insCount s j := by
        rw [insCount_succ, spaceAfter_of_drop_nil hd]
        rfl
      have h2 : (format_text s).drop (j + 1 + insCount s j)
          = ((format_text s).drop (j + insCount s j)).drop 1 := by
        rw [List.drop_drop]
        congr 1
        omega
      rw [hK, h1, h2, ih, hd]
      rfl
    | cons c l =>
      cases l with
      | nil =>
        have h1 : s.drop (j + 1) = [] := drop_cons_succ hd
        have hK : insCount s (j + 1) = insCount s j := by
          rw [insCount_succ, spaceAfter_of_drop_single hd]
          rfl
        have h2 : (format_text s).drop (j + 1 + insCount s j)
            = ((format_text s).drop (j + insCount s j)).drop 1 := by
          rw [List.drop_drop]
          congr 1
          omega
        rw [hK, h1, h2, ih, hd]
        rfl
      | cons n r =>
        have h1 : s.drop (j + 1) = n :: r := drop_cons_succ hd
        by_cases hsa : spaceAfter s j = true
        · have hK : insCount s (j + 1) = insCount s j + 1 := by
            rw [insCount_succ, hsa]
            rfl
          have hidx : j + 1 + insCount s (j + 1) = j + insCount s j + 2 := by
            rw [hK]
            omega
          rw [h1, hidx, ← List.drop_drop, ih, hd, formatGo_cons hd, hsa]
          rfl
        · have hsaf : spaceAfter s j = false := by
            simpa using hsa
          have hK : insCount s (j + 1) = insCount s j := by
            rw [insCount_succ, hsaf]
            rfl
          have hidx : j + 1 + insCount s (j + 1) = j + insCount s j + 1 := by
            rw [hK]
            omega
          rw [h1, hidx, ← List.drop_drop, ih, hd, formatGo_cons hd, hsaf]
          rfl

theorem formatGo_pointwise_eq {s : List Char} {m L : Nat}
    (hno : ∀ t, t + 1 < L → spaceAfter s (m + t) = false) :
    ∀ k, k < L → (format_text s)[m + insCount s m + k]? = s[m + k]? := by
  intro k hk
  have h1 : (format_text s)[m + insCount s m + k]?
      = ((format_text s).drop (m + insCount s m))[k]? := by
    rw [List.getElem?_drop]
  rw [h1, format_text_drop s m]
  have h2 := formatGo_take s (s.drop m) m L rfl hno
  have h3 : (formatGo s m (s.drop m))[k]? = ((formatGo s m (s.drop m)).take L)[k]? := by
    rw [List.getElem?_take, if_pos hk]
  rw [h3, h2, List.getElem?_take, if_pos hk, List.getElem?_drop]

theorem markerOcc_transfer {s : List Char} {m L : Nat} (hm : markerOcc s m L) :
    markerOcc (format_text s) (m + insCount s m) L := by
  have hL := markerOcc_len hm
  have hno : ∀ t, t + 1 < L → spaceAfter s (m + t) = false := by
    intro t ht
    exact spaceAfter_false_of_marker hm (by omega) (by omega)
  have hpw := formatGo_pointwise_eq hno
  rcases hm with ⟨pat, hmem, hlen, hpt⟩ | ⟨hL3, hat, hc1, hc2⟩
  · refine Or.inl ⟨pat, hmem, hlen, ?_⟩
    intro k hk
    rw [hpw k (by omega)]
    exact hpt k hk
  · subst hL3
    have h0 : (format_text s)[m + insCount s m]? = s[m]? := by
      have := hpw 0 (by omega)
      simpa using this
    refine Or.inr ⟨rfl, ?_, ?_, ?_⟩
    · rw [hpw 1 (by omega)]
      exact hat
    · apply classAt_true_iff.mpr
      obtain ⟨c, hcc, hcl⟩ := classAt_true_iff.mp hc1
      exact ⟨c, by rw [h0]; exact hcc, hcl⟩
    · apply classAt_true_iff.mpr
      obtain ⟨c, hcc, hcl⟩ := classAt_true_iff.mp hc2
      exact ⟨c, by rw [hpw 2 (by omega)]; exact hcc, hcl⟩

theorem ctx_transfer {s : List Char} {j : Nat}
    (h : is_url_or_email_context s j = true) :
    is_url_or_email_context (format_text s) (j + insCount s j) = true := by
  obtain ⟨m, L, hm, hb1, hb2⟩ := (ctx_iff s j).mp h
  have hKeq : insCount s j = insCount s m := marker_insCount_eq hm hb1 hb2
  apply (ctx_iff (format_text s) (j + insCount s j)).mpr
  exact ⟨m + insCount s m, L, markerOcc_transfer hm, by omega, by omega⟩

theorem formatGo_head (t : List Char) (i : Nat) (c : Char) (l : List Char) :
    ∃ Y, formatGo t i (c :: l) = c :: Y := by
  cases l with
  | nil => exact ⟨[], rfl⟩
  | cons n r =>
    by_cases hn : n = ' '
    · refine ⟨formatGo t (i + 1) (n :: r), ?_⟩
      subst hn
      simp [formatGo]
    · by_cases hb : (boundary c n && !is_url_or_email_context t i) = true
      · refine ⟨' ' :: formatGo t (i + 1) (n :: r), ?_⟩
        simp [formatGo, hn, hb]
      · refine ⟨formatGo t (i + 1) (n :: r), ?_⟩
        simp [formatGo, hn, hb]

/-! ## The second pass inserts nothing -/

theorem no_reinsert (s : List Char) :
    ∀ (l : List Char) (j : Nat), s.drop j = l →
      ∀ q, j + insCount s j ≤ q → spaceAfter (format_text s) q = false
  | [], j, h, q, hq => by
    have h1 : (format_text s).drop (j + insCount s j) = [] := by
      rw [format_text_drop s j, h]
      rfl
    have h2 : (format_text s).drop q = [] := by
      rw [List.drop_eq_nil_iff] at h1 ⊢
      omega
    exact spaceAfter_of_drop_nil h2
  | [c], j, h, q, hq => by
    have h1 : (format_text s).drop (j + insCount s j) = [c] := by
      rw [format_text_drop s j, h]
      rfl
    rcases Nat.eq_or_lt_of_le hq with he | hlt
    · exact spaceAfter_of_drop_single (he ▸ h1)
    · have h3 : (format_text s).drop (j + insCount s j + 1) = [] := drop_cons_succ h1
      have h2 : (format_text s).drop q = [] := by
        rw [List.drop_eq_nil_iff] at h3 ⊢
        omega
      exact spaceAfter_of_drop_nil h2
  | c :: n :: r, j, h, q, hq => by
    have h1 : s.drop (j + 1) = n :: r := drop_cons_succ h
    have hfd : (format_text s).drop (j + insCount s j) = formatGo s j (c :: n :: r) := by
      rw [format_text_drop s j, h]
    obtain ⟨Y, hY⟩ := formatGo_head s (j + 1) n r
    by_cases hsa : spaceAfter s j = true
    · have hK : insCount s (j + 1) = insCount s j + 1 := by
        rw [insCount_succ, hsa]
        rfl
      have hfd2 : (format_text s).drop (j + insCount s j)
          = c :: ' ' :: formatGo s (j + 1) (n :: r) := by
        rw [hfd, formatGo_cons h, hsa]
        rfl
      have htri : q = j + insCount s j ∨ q = j + insCount s j + 1
          ∨ j + insCount s j + 2 ≤ q := by omega
      rcases htri with he | he | hge
      · subst he
        rw [spaceAfter_eq hfd2]
        simp
      · subst he
        have hfd3 : (format_text s).drop (j + insCount s j + 1)
            = ' ' :: n :: Y := by
          rw [drop_cons_succ hfd2, hY]
        rw [spaceAfter_eq hfd3]
        simp [boundary, space_not_cjk, space_not_alnum]
      · exact no_reinsert s (n :: r) (j + 1) h1 q (by omega)
    · have hsaf : spaceAfter s j = false := by
        simpa using hsa
      have hK : insCount s (j + 1) = insCount s j := by
        rw [insCount_succ, hsaf]
        rfl
      have hfd2 : (format_text s).drop (j + insCount s j)
          = c :: n :: Y := by
        rw [hfd, formatGo_cons h, hsaf, hY]
        rfl
      have htri : q = j + insCount s j ∨ j + insCount s j + 1 ≤ q := by omega
      rcases htri with he | hge
      · subst he
        by_cases hn : n = ' '
        · rw [spaceAfter_eq hfd2]
          simp [hn]
        · by_cases hb : boundary c n = true
          · have hfalse : (decide (n ≠ ' ') && boundary c n
                && !is_url_or_email_context s j) = false := by
              rw [← spaceAfter_eq h]
              exact hsaf
            have hA : decide (n ≠ ' ') = true := by
              simp [hn]
            rw [hA, hb] at hfalse
            have hctx : is_url_or_email_context s j = true := by
              simpa using hfalse
            exact spaceAfter_false_of_ctx (ctx_transfer hctx)
          · rw [spaceAfter_eq hfd2]
            simp only [Bool.not_eq_true] at hb
            simp [hb]
      · exact no_reinsert s (n :: r) (j + 1) h1 q (by omega)

/-- C2: `format_text` is idempotent: a second pass over already-formatted
text inserts nothing, because every suppressed boundary stays suppressed
(marker occurrences shift by exactly the same number of inserted spaces as
the boundary they suppress) and every inserted space blocks its pair. -/
theorem C2_idempotent (s : List Char) :
    format_text (format_text s) = format_text s := by
  apply format_text_id_of_no_insert
  intro q
  exact no_reinsert s s 0 rfl q (Nat.zero_le q)

/-! ## Remaining claim theorems -/

/-- C3: the context detector returns true iff the clamped window
`text[max(0, pos - 50) : min(len(text), pos + 50)]` contains a
case-insensitive occurrence of one of the URL patterns (`https?://` being the
two literals `http://` and `https://`, then `ftp://` and `www.`), or contains
an `@` character together with an email-shape match: a `[\w.-]` class
character immediately before and after an `@`. -/
theorem C3_context_detector (text : List Char) (pos : Nat) :
    is_url_or_email_context text pos = true ↔
      ((∃ pat, pat ∈ urlPats
          ∧ ∃ i, ∀ k, k < pat.length →
              ((window text pos).map lowerChar)[i + k]? = pat[k]?)
       ∨ ('@' ∈ window text pos
          ∧ ∃ a, 1 ≤ a ∧ (window text pos)[a]? = some '@'
              ∧ classAt (window text pos) (a - 1) = true
              ∧ classAt (window text pos) (a + 1) = true)) := by
  simp only [is_url_or_email_context, Bool.or_eq_true, Bool.and_eq_true,
    List.any_eq_true, decide_eq_true_iff]
  constructor
  · rintro (⟨pat, hmem, hcp⟩ | ⟨hmem, hes⟩)
    · exact Or.inl ⟨pat, hmem, containsPat_iff.mp hcp⟩
    · exact Or.inr ⟨hmem, emailShape_iff.mp hes⟩
  · rintro (⟨pat, hmem, hocc⟩ | ⟨hmem, hes⟩)
    · exact Or.inl ⟨pat, hmem, containsPat_iff.mpr hocc⟩
    · exact Or.inr ⟨hmem, emailShape_iff.mpr hes⟩

theorem formatGo_sublist (s : List Char) :
    ∀ (l : List Char) (i : Nat), s.drop i = l → List.Sublist l (formatGo s i l)
  | [], _, _ => List.Sublist.refl []
  | [c], _, _ => List.Sublist.refl [c]
  | c :: n :: r, i, h => by
    have h1 : s.drop (i + 1) = n :: r := drop_cons_succ h
    have ih := formatGo_sublist s (n :: r) (i + 1) h1
    rw [formatGo_cons h]
    by_cases hsa : spaceAfter s i = true
    · rw [if_pos hsa, List.singleton_append]
      exact List.Sublist.cons₂ c (List.Sublist.cons ' ' ih)
    · rw [if_neg hsa, List.nil_append]
      exact List.Sublist.cons₂ c ih

theorem formatGo_count (s : List Char) (x : Char) (hx : x ≠ ' ') :
    ∀ (l : List Char) (i : Nat), s.drop i = l →
      (formatGo s i l).count x = l.count x
  | [], _, _ => rfl
  | [_], _, _ => rfl
  | c :: n :: r, i, h => by
    have h1 : s.drop (i + 1) = n :: r := drop_cons_succ h
    have ih := formatGo_count s x hx (n :: r) (i + 1) h1
    rw [formatGo_cons h]
    by_cases hsa : spaceAfter s i = true
    · rw [if_pos hsa, List.singleton_append]
      simp [List.count_cons, ih, Ne.symm hx]
    · rw [if_neg hsa, List.nil_append]
      simp [List.count_cons, ih]

/-- C5: `format_text` only inserts: the input is a sublist (order-preserving
embedding) of the output, the output is never shorter, and the inserted
characters are exclusively ASCII spaces (the count of every non-space
character is unchanged). -/
theorem C5_insertion_only (s : List Char) :
    List.Sublist s (format_text s)
    ∧ s.length ≤ (format_text s).length
    ∧ ∀ c, c ≠ ' ' → (format_text s).count c = s.count c := by
  have hsub : List.Sublist s (format_text s) := by
    cases s with
    | nil => exact List.Sublist.refl []
    | cons c t =>
      have h0 : format_text (c :: t) = formatGo (c :: t) 0 (c :: t) := rfl
      rw [h0]
      exact formatGo_sublist (c :: t) (c :: t) 0 rfl
  refine ⟨hsub, hsub.length_le, ?_⟩
  intro x hx
  cases s with
  | nil => rfl
  | cons c t =>
    have h0 : format_text (c :: t) = formatGo (c :: t) 0 (c :: t) := rfl
    rw [h0]
    exact formatGo_count (c :: t) x hx (c :: t) 0 rfl

/-- Witness for C5 at a concrete input and non-space character. -/
theorem C5_insertion_only_witness :
    (format_text ['中', 'A']).count 'A' = (['中', 'A']).count 'A' :=
  (C5_insertion_only ['中', 'A']).2.2 'A' (by decide)

theorem boundary_ne_space {c n : Char} (h : boundary c n = true) :
    c ≠ ' ' ∧ n ≠ ' ' := by
  simp only [boundary, Bool.or_eq_true, Bool.and_eq_true] at h
  rcases h with ⟨h1, h2⟩ | ⟨h1, h2⟩
  · exact ⟨cjk_ne_space h1, alnum_ne_space h2⟩
  · exact ⟨alnum_ne_space h1, cjk_ne_space h2⟩

/-- C7: an existing single space at a CJK↔ASCII-alnum boundary is preserved
(`format_text "中 A" = "中 A"`), and a space is only ever inserted between
two non-space code points: whenever the insertion rule fires at index `i`,
neither `text[i]` nor `text[i+1]` is a space, so the rule never produces a
space adjacent to another space. -/
theorem C7_space_never_duplicated :
    format_text ['中', ' ', 'A'] = ['中', ' ', 'A']
    ∧ ∀ text i, spaceAfter text i = true →
        (text.getD i ' ' ≠ ' ' ∧ text.getD (i + 1) ' ' ≠ ' ') := by
  constructor
  · decide
  · intro text i hsa
    cases hd : text.drop i with
    | nil =>
      rw [spaceAfter_of_drop_nil hd] at hsa
      cases hsa
    | cons c l =>
      cases l with
      | nil =>
        rw [spaceAfter_of_drop_single hd] at hsa
        cases hsa
      | cons n r =>
        rw [spaceAfter_eq hd] at hsa
        simp only [Bool.and_eq_true, decide_eq_true_iff] at hsa
        obtain ⟨⟨hne, hb⟩, -⟩ := hsa
        have hsp := boundary_ne_space hb
        have hc : text[i]? = some c := by
          have hh : (text.drop i)[0]? = text[i + 0]? := List.getElem?_drop text i 0
          rw [hd] at hh
          simpa using hh.symm
        have hn : text[i + 1]? = some n := by
          have hh : (text.drop i)[1]? = text[i + 1]? := List.getElem?_drop text i 1
          rw [hd] at hh
          simpa using hh.symm
        constructor
        · rw [List.getD_eq_getElem?_getD, hc]
          exact hsp.1
        · rw [List.getD_eq_getElem?_getD, hn]
          exact hsp.2

/-- Witness for C7 at the concrete boundary `中A`, index 0. -/
theorem C7_space_never_duplicated_witness :
    (['中', 'A'] : List Char).getD 0 ' ' ≠ ' '
    ∧ (['中', 'A'] : List Char).getD 1 ' ' ≠ ' ' :=
  C7_space_never_duplicated.2 ['中', 'A'] 0 (by decide)

/-- C8: Python's Unicode `\w` makes a CJK character a word character, so in
`X日@日Y` the email heuristic fires in the window of every position, and
`format_text` leaves the string unchanged: no space at the `X`↔`日` or
`日`↔`Y` boundaries. -/
theorem C8_cjk_email_suppression :
    (is_url_or_email_context ['X', '日', '@', '日', 'Y'] 0 = true
     ∧ is_url_or_email_context ['X', '日', '@', '日', 'Y'] 1 = true
     ∧ is_url_or_email_context ['X', '日', '@', '日', 'Y'] 2 = true
     ∧ is_url_or_email_context ['X', '日', '@', '日', 'Y'] 3 = true
     ∧ is_url_or_email_context ['X', '日', '@', '日', 'Y'] 4 = true)
    ∧ format_text ['X', '日', '@', '日', 'Y'] = ['X', '日', '@', '日', 'Y'] := by
  decide

/-- C9: the context detector is total and safe for every text and every
position, including positions beyond the end: the window is a clamped
sub-slice of the text (never longer than the text, every element taken from
the text), the result is always a boolean, and a position at least 50 past
the end yields an empty window and a false result. -/
theorem C9_detector_safety (text : List Char) (pos : Nat) :
    (window text pos).length ≤ text.length
    ∧ (∀ c, c ∈ window text pos → c ∈ text)
    ∧ (is_url_or_email_context text pos = true
       ∨ is_url_or_email_context text pos = false)
    ∧ (text.length + 50 ≤ pos → is_url_or_email_context text pos = false) := by
  refine ⟨?_, ?_, ?_, ?_⟩
  · simp only [window, List.length_drop, List.length_take]
    omega
  · intro c hc
    exact List.take_subset _ _ (List.drop_subset _ _ hc)
  · cases h : is_url_or_email_context text pos
    · exact Or.inr rfl
    · exact Or.inl rfl
  · intro hge
    have hw : window text pos = [] := by
      unfold window
      apply List.drop_eq_nil_of_le
      have := List.length_take_le' (pos + 50) text
      omega
    unfold is_url_or_email_context
    rw [hw]
    decide

/-- Witness for C9 at a position 50 past the end of a one-character text. -/
theorem C9_detector_safety_witness :
    (['a'] : List Char).length + 50 ≤ 51
    ∧ is_url_or_email_context ['a'] 51 = false :=
  ⟨by decide, (C9_detector_safety ['a'] 51).2.2.2 (by decide)⟩

/-- C10: the CLI validation treats each of the four conditions — both flags,
neither flag, zero files, and the single file `-` with `--check` instead of
`--write` — as a usage error: a message on the error stream and exit status
1, produced before any file is read or written. -/
theorem C10_cli_usage_errors (check write : Bool) (files : List String) :
    ((check = true ∧ write = true) → isUsage (cliValidate check write files) = true)
    ∧ ((check = false ∧ write = false) → isUsage (cliValidate check write files) = true)
    ∧ (files = [] → isUsage (cliValidate check write files) = true)
    ∧ ((files = [("-" : String)] ∧ check = true ∧ write = false) →
        isUsage (cliValidate check write files) = true) := by
  refine ⟨?_, ?_, ?_, ?_⟩
  · rintro ⟨hc, hw⟩
    subst hc
    subst hw
    simp [cliValidate, isUsage]
  · rintro ⟨hc, hw⟩
    subst hc
    subst hw
    by_cases hf : files.isEmpty
    · simp [cliValidate, isUsage, hf]
    · simp [cliValidate, isUsage, hf]
  · rintro rfl
    cases check <;> cases write <;> simp [cliValidate, isUsage]
  · rintro ⟨hf, hc, hw⟩
    subst hf
    subst hc
    subst hw
    simp [cliValidate, isUsage]

/-- Witness for C10 at concrete flag/file combinations for all four cases. -/
theorem C10_cli_usage_errors_witness :
    isUsage (cliValidate true true [("a" : String)]) = true
    ∧ isUsage (cliValidate false false [("a" : String)]) = true
    ∧ isUsage (cliValidate true false ([] : List String)) = true
    ∧ isUsage (cliValidate true false [("-" : String)]) = true :=
  ⟨(C10_cli_usage_errors true true [("a" : String)]).1 ⟨rfl, rfl⟩,
   (C10_cli_usage_errors false false [("a" : String)]).2.1 ⟨rfl, rfl⟩,
   (C10_cli_usage_errors true false ([] : List String)).2.2.1 rfl,
   (C10_cli_usage_errors true false [("-" : String)]).2.2.2 ⟨rfl, rfl, rfl⟩⟩

end CjkFmt
